import Mathlib

/-
Verification development for the knapsack branch-and-bound engine
(`sheets/02_bnb/knapsack_bnb`).  The relaxation solvers and branching
strategies are translated from `relaxation.py` and `branching_strategy.py`.
The data model (`instance.py`, `relaxed_solution.py`, `branching_decisions.py`,
`bnb_nodes.py`) and the search driver are not part of the provided sources and
are modelled from the design specification.  Numbers are represented by `ℚ`.
-/

namespace KnapsackBnB

/-- Decidable equality for `Except`, reducing by pattern matching so that
concrete runs of the fallible operations can be settled by `decide`. -/
instance {ε α : Type} [DecidableEq ε] [DecidableEq α] : DecidableEq (Except ε α) :=
  fun a b =>
    match a, b with
    | Except.error x, Except.error y =>
      if h : x = y then isTrue (by rw [h]) else isFalse (by intro hh; cases hh; exact h rfl)
    | Except.error _, Except.ok _ => isFalse (by intro hh; cases hh)
    | Except.ok _, Except.error _ => isFalse (by intro hh; cases hh)
    | Except.ok x, Except.ok y =>
      if h : x = y then isTrue (by rw [h]) else isFalse (by intro hh; cases hh; exact h rfl)

/-- Modelled from the spec: `instance.py` is not under `src/`.  An item has a
non-negative `value` and a non-negative `weight` (§3 of the design). -/
structure Item where
  value : ℚ
  weight : ℚ
  deriving DecidableEq

/-- Modelled from the spec: `instance.py` is not under `src/`.  An instance is
an ordered sequence of items together with a capacity (§3). -/
structure Instance where
  items : List Item
  capacity : ℚ
  deriving DecidableEq

/-- Modelled from the spec: `branching_decisions.py` is not under `src/`.
A decision vector is an ordered sequence with entries unset (`none`),
fixed to 0 (`some false`) or fixed to 1 (`some true`) (§3). -/
abbrev BranchingDecisions := List (Option Bool)

/-- Errors a strategy call can signal: `invalidBranchIndex` is the contract
violation of §7 of the design; `zeroDivisionError` models the Python runtime
error raised by evaluating `item.value / item.weight` on a zero weight. -/
inductive SolverError where
  | invalidBranchIndex
  | zeroDivisionError
  deriving DecidableEq

/-- Modelled from the spec: `branching_decisions.py` is not under `src/`.
`split_on i` requires entry `i` to be unset and returns two decision vectors,
identical to the input except entry `i` is 0 in one and 1 in the other;
calling it on an already-fixed (or out-of-range) index fails with
`InvalidBranchIndex` (§3). -/
def BranchingDecisions.split_on (d : BranchingDecisions) (i : ℕ) :
    Except SolverError (BranchingDecisions × BranchingDecisions) :=
  if d[i]? = some none then
    Except.ok (d.set i (some false), d.set i (some true))
  else
    Except.error SolverError.invalidBranchIndex

/-- Modelled from the spec: `relaxed_solution.py` is not under `src/`.
A relaxed solution holds the generating instance, a selection vector, an
objective (a sentinel `⊥` below any real objective when infeasible, §3), and
a feasibility flag.  The Python attribute `instance` is called `inst` here
because `instance` is a Lean keyword. -/
structure RelaxedSolution where
  inst : Instance
  selection : List ℚ
  objective : WithBot ℚ
  feasible : Bool
  deriving DecidableEq

/-- Modelled from the spec: `RelaxedSolution.create_infeasible` builds an
infeasible relaxed solution carrying the objective sentinel `⊥` and
`feasible = false` (§3 invariant (c), §4.1). -/
def RelaxedSolution.create_infeasible (inst : Instance) : RelaxedSolution :=
  { inst := inst
    selection := List.replicate inst.items.length 0
    objective := ⊥
    feasible := false }

/-- Modelled from the spec: `bnb_nodes.py` is not under `src/`.  A node
bundles a decision vector with its computed relaxed solution (§3). -/
structure BnBNode where
  branching_decisions : BranchingDecisions
  relaxed_solution : RelaxedSolution
  deriving DecidableEq

/-- The selection `[0.0 if x == 0 else 1.0 for x in decisions]` built by the
solvers in `relaxation.py` (lines 71, 90, 109). -/
def naiveSelection (decisions : BranchingDecisions) : List ℚ :=
  decisions.map (fun x => if x = some false then (0 : ℚ) else 1)

/-- The objective `sum(item.value * sel for item, sel in zip(instance.items,
selection))` computed in `relaxation.py` (lines 73, 91, 110). -/
def naiveObjective (inst : Instance) (decisions : BranchingDecisions) : ℚ :=
  ((inst.items.zip (naiveSelection decisions)).map (fun p => p.1.value * p.2)).sum

/-- The weight `sum(item.weight for item, x in zip(instance.items, decisions)
if x == 1)` of the items fixed to 1 (`relaxation.py` lines 86, 106). -/
def fixedOneWeight (inst : Instance) (decisions : BranchingDecisions) : ℚ :=
  (((inst.items.zip decisions).filter (fun p => decide (p.2 = some true))).map
    (fun p => p.1.weight)).sum

/-- `VeryNaiveRelaxationSolver.solve` (`relaxation.py` lines 67-74): sets every
unfixed item to 1 ignoring the capacity and sums the values. -/
def VeryNaiveRelaxationSolver.solve (inst : Instance) (decisions : BranchingDecisions) :
    RelaxedSolution :=
  { inst := inst
    selection := naiveSelection decisions
    objective := (naiveObjective inst decisions : ℚ)
    feasible := true }

/-- `NaiveRelaxationSolver.solve` (`relaxation.py` lines 82-92): returns an
infeasible solution when the items fixed to 1 already exceed the capacity and
otherwise behaves like `VeryNaiveRelaxationSolver.solve`. -/
def NaiveRelaxationSolver.solve (inst : Instance) (decisions : BranchingDecisions) :
    RelaxedSolution :=
  if inst.capacity < fixedOneWeight inst decisions then
    RelaxedSolution.create_infeasible inst
  else
    { inst := inst
      selection := naiveSelection decisions
      objective := (naiveObjective inst decisions : ℚ)
      feasible := true }

/-- `MyRelaxationSolver.solve` (`relaxation.py` lines 102-111): the placeholder
that behaves like `NaiveRelaxationSolver`. -/
def MyRelaxationSolver.solve (inst : Instance) (decisions : BranchingDecisions) :
    RelaxedSolution :=
  if inst.capacity < fixedOneWeight inst decisions then
    RelaxedSolution.create_infeasible inst
  else
    { inst := inst
      selection := naiveSelection decisions
      objective := (naiveObjective inst decisions : ℚ)
      feasible := true }

/-- The smallest index whose entry is unset, the Python
`min((i for i, val in enumerate(decisions) if val is None), default=-1)`
of `branching_strategy.py` lines 43-46 (`none` plays the role of `-1`). -/
def firstUnsetIdx : BranchingDecisions → Option ℕ
  | [] => none
  | none :: _ => some 0
  | some _ :: d => (firstUnsetIdx d).map (fun i => i + 1)

/-- `FirstUndecidedBranchingStrategy.make_branching_decisions`
(`branching_strategy.py` lines 41-49): split on the first unfixed variable,
returning no children at a fully fixed node. -/
def FirstUndecidedBranchingStrategy.make_branching_decisions (node : BnBNode) :
    Except SolverError (List BranchingDecisions) :=
  match firstUnsetIdx node.branching_decisions with
  | none => Except.ok []
  | some i =>
    (BranchingDecisions.split_on node.branching_decisions i).map (fun p => [p.1, p.2])

/-- The filtered enumeration of `zip(relaxed.selection, decisions,
relaxed.instance.items)` built by `MyBranchingStrategy.make_branching_decisions`
(`branching_strategy.py` lines 66-70): the entries kept are those whose
decision is unfixed and whose relaxed selection value is strictly between
0 and 1.  An element `p` is `(index, (selection value, (decision, item)))`. -/
def consideredList (node : BnBNode) : List (ℕ × (ℚ × (Option Bool × Item))) :=
  ((node.relaxed_solution.selection.zip
    (node.branching_decisions.zip node.relaxed_solution.inst.items)).enum).filter
    (fun p => decide (p.2.2.1 = none ∧ 0 < p.2.1 ∧ p.2.1 < 1))

/-- The candidate `(item.value / item.weight, i)` pair of
`branching_strategy.py` line 67. -/
def densityOf (p : ℕ × (ℚ × (Option Bool × Item))) : ℚ × ℕ :=
  (p.2.2.2.value / p.2.2.2.weight, p.1)

/-- Lexicographic strict comparison on `(density, index)` pairs, the order
used by the Python tuple comparison in `max(candidates)`. -/
def pairLt (a b : ℚ × ℕ) : Prop :=
  a.1 < b.1 ∨ (a.1 = b.1 ∧ a.2 < b.2)

instance (a b : ℚ × ℕ) : Decidable (pairLt a b) := by
  unfold pairLt
  infer_instance

/-- `MyBranchingStrategy.make_branching_decisions` (`branching_strategy.py`
lines 61-77): among unfixed indices with strictly fractional relaxed value,
split on the one whose `(value/weight, index)` pair is maximal; with no
candidate, return no children.  Computing `item.value / item.weight` for a
candidate of weight 0 raises a `ZeroDivisionError` in Python, modelled here by
the error result. -/
def MyBranchingStrategy.make_branching_decisions (node : BnBNode) :
    Except SolverError (List BranchingDecisions) :=
  if (consideredList node).any (fun p => decide (p.2.2.2.weight = 0)) then
    Except.error SolverError.zeroDivisionError
  else
    match (consideredList node).map densityOf with
    | [] => Except.ok []
    | c :: cs =>
      (BranchingDecisions.split_on node.branching_decisions
        (cs.foldl (fun acc c2 => if pairLt acc c2 then c2 else acc) c).2).map
        (fun p => [p.1, p.2])

/-- Modelled from the spec: the search driver is not under `src/`.  Statuses
of the driver state machine (§4.3, §6). -/
inductive SolveStatus where
  | OPTIMAL
  | FEASIBLE_TIMEOUT
  | INFEASIBLE
  deriving DecidableEq

/-- Modelled from the spec: the `SolveResult` record returned by the engine
(§6). -/
structure SolveResult where
  status : SolveStatus
  best_value : WithBot ℚ
  best_selection : Option (List ℚ)
  deriving DecidableEq

/-- Modelled from the spec: the driver's mutable state, a frontier of pending
nodes plus the incumbent (§3, §4.3).  `best_value = ⊥` encodes "no feasible
solution found". -/
structure SearchState where
  frontier : List BnBNode
  best_value : WithBot ℚ
  best_selection : Option (List ℚ)

/-- Whether a selection vector is 0/1-valued (§4.3 step 2). -/
def isIntegralSel (sel : List ℚ) : Bool :=
  sel.all (fun x => decide (x = 0) || decide (x = 1))

/-- Total weight of a (possibly fractional) selection, used by the driver's
capacity check on integral bounds (§4.3 step 2). -/
def selectionWeight (inst : Instance) (sel : List ℚ) : ℚ :=
  ((inst.items.zip sel).map (fun p => p.1.weight * p.2)).sum

/-- Bound a list of child decision vectors with `NaiveRelaxationSolver` and
wrap them into nodes (§4.3 step 2, "for each child, compute its
`RelaxedSolution` via the `RelaxationSolver`"). -/
def expandNode (inst : Instance) (node : BnBNode) :
    Except SolverError (List BnBNode) :=
  (FirstUndecidedBranchingStrategy.make_branching_decisions node).map
    (fun children =>
      children.map (fun d => BnBNode.mk d (NaiveRelaxationSolver.solve inst d)))

/-- Modelled from the spec: the driver loop of §4.3, instantiated with
`NaiveRelaxationSolver` and `FirstUndecidedBranchingStrategy` and a
depth-first frontier (the spec leaves the frontier order free).  Pops a node;
discards it when its bound cannot beat the incumbent (strict pruning,
`objective ≤ best_value`); otherwise records an integral capacity-respecting
bound as the new incumbent when it strictly improves; otherwise branches and
pushes the bounded children.  The fuel argument is the cooperative budget:
exhausting it yields `FEASIBLE_TIMEOUT`; an empty frontier yields `OPTIMAL`
(or `INFEASIBLE` when no incumbent was ever recorded, §4.3 rule 5). -/
def bnbLoop (inst : Instance) : ℕ → SearchState → Except SolverError SolveResult
  | 0, st =>
    Except.ok { status := SolveStatus.FEASIBLE_TIMEOUT
                best_value := st.best_value
                best_selection := st.best_selection }
  | fuel + 1, st =>
    match st.frontier with
    | [] =>
      match st.best_selection with
      | none =>
        Except.ok { status := SolveStatus.INFEASIBLE
                    best_value := st.best_value
                    best_selection := none }
      | some sel =>
        Except.ok { status := SolveStatus.OPTIMAL
                    best_value := st.best_value
                    best_selection := some sel }
    | node :: rest =>
      if node.relaxed_solution.objective ≤ st.best_value then
        bnbLoop inst fuel
          { frontier := rest
            best_value := st.best_value
            best_selection := st.best_selection }
      else if node.relaxed_solution.feasible = true ∧
          isIntegralSel node.relaxed_solution.selection = true ∧
          selectionWeight inst node.relaxed_solution.selection ≤ inst.capacity then
        if st.best_value < node.relaxed_solution.objective then
          bnbLoop inst fuel
            { frontier := rest
              best_value := node.relaxed_solution.objective
              best_selection := some node.relaxed_solution.selection }
        else
          bnbLoop inst fuel
            { frontier := rest
              best_value := st.best_value
              best_selection := st.best_selection }
      else
        match expandNode inst node with
        | Except.error e => Except.error e
        | Except.ok newNodes =>
          bnbLoop inst fuel
            { frontier := newNodes ++ rest
              best_value := st.best_value
              best_selection := st.best_selection }

/-- The all-unset root decision vector (§4.3 rule 1). -/
def rootDecisions (inst : Instance) : BranchingDecisions :=
  List.replicate inst.items.length none

/-- A fuel budget large enough for the loop to empty its frontier. -/
def bnbFuel (inst : Instance) : ℕ :=
  3 ^ inst.items.length + 1

/-- Modelled from the spec: the driver entry point (§4.3): seed the frontier
with the bounded root node and run the loop with a sufficient budget. -/
def solve (inst : Instance) : Except SolverError SolveResult :=
  bnbLoop inst (bnbFuel inst)
    { frontier := [BnBNode.mk (rootDecisions inst)
        (NaiveRelaxationSolver.solve inst (rootDecisions inst))]
      best_value := ⊥
      best_selection := none }

/-- All 0/1 assignments of a given length, the brute-force enumeration space
of §8. -/
def allAssignments : ℕ → List (List Bool)
  | 0 => [[]]
  | n + 1 =>
    ((allAssignments n).map (fun s => false :: s)) ++
      ((allAssignments n).map (fun s => true :: s))

/-- Total weight of a 0/1 assignment. -/
def assignWeight (inst : Instance) (s : List Bool) : ℚ :=
  ((inst.items.zip s).map (fun p => if p.2 then p.1.weight else 0)).sum

/-- Total value of a 0/1 assignment. -/
def assignValue (inst : Instance) (s : List Bool) : ℚ :=
  ((inst.items.zip s).map (fun p => if p.2 then p.1.value else 0)).sum

/-- The true optimum of a knapsack instance: the maximum total value over all
0/1 assignments whose total weight is at most the capacity (`⊥` when no
assignment is feasible). -/
def trueOptimum (inst : Instance) : WithBot ℚ :=
  (((allAssignments inst.items.length).filter
      (fun s => decide (assignWeight inst s ≤ inst.capacity))).map
    (fun s => assignValue inst s)).maximum

/-- A 0/1 assignment `s` is a completion of the decision vector `d`: it has
the same length and agrees with every fixed entry of `d`. -/
def consistent (s : List Bool) (d : BranchingDecisions) : Prop :=
  s.length = d.length ∧ ∀ (i : ℕ) (b : Bool), d[i]? = some (some b) → s[i]? = some b

/-- The §8 end-to-end example instance: items `(10,5)`, `(6,3)`, `(8,4)`,
capacity `8`. -/
def exInst : Instance :=
  ⟨[⟨10, 5⟩, ⟨6, 3⟩, ⟨8, 4⟩], 8⟩

lemma naiveSelection_getElem? (d : BranchingDecisions) (i : ℕ) :
    (naiveSelection d)[i]? =
      (d[i]?).map (fun x => if x = some false then (0 : ℚ) else 1) :=
  List.getElem?_map _ d i

lemma mem_naiveSelection {d : BranchingDecisions} {x : ℚ}
    (hx : x ∈ naiveSelection d) : x = 0 ∨ x = 1 := by
  rcases List.mem_map.mp hx with ⟨a, -, ha⟩
  by_cases h : a = some false
  · left
    rw [← ha]
    simp [h]
  · right
    rw [← ha]
    simp [h]

lemma naive_solve_eq (inst : Instance) (d : BranchingDecisions) :
    NaiveRelaxationSolver.solve inst d =
      (if inst.capacity < fixedOneWeight inst d then
        RelaxedSolution.create_infeasible inst
      else VeryNaiveRelaxationSolver.solve inst d) :=
  rfl

lemma my_solve_eq_naive (inst : Instance) (d : BranchingDecisions) :
    MyRelaxationSolver.solve inst d = NaiveRelaxationSolver.solve inst d :=
  rfl

lemma naive_solve_of_fits {inst : Instance} {d : BranchingDecisions}
    (h : ¬ inst.capacity < fixedOneWeight inst d) :
    NaiveRelaxationSolver.solve inst d = VeryNaiveRelaxationSolver.solve inst d := by
  rw [naive_solve_eq, if_neg h]

lemma naive_solve_feasible_iff (inst : Instance) (d : BranchingDecisions) :
    (NaiveRelaxationSolver.solve inst d).feasible = true ↔
      ¬ inst.capacity < fixedOneWeight inst d := by
  by_cases h : inst.capacity < fixedOneWeight inst d <;>
    simp [naive_solve_eq, h, RelaxedSolution.create_infeasible,
      VeryNaiveRelaxationSolver.solve]

/-- The completion value is bounded by the weight-blind objective, itemwise. -/
lemma zipValue_le (items : List Item) (d : List (Option Bool)) (s : List Bool)
    (hv : ∀ it ∈ items, 0 ≤ it.value) (hlen : s.length = d.length)
    (hcons : ∀ (i : ℕ) (b : Bool), d[i]? = some (some b) → s[i]? = some b) :
    ((items.zip s).map (fun p => if p.2 then p.1.value else 0)).sum ≤
      ((items.zip (naiveSelection d)).map (fun p => p.1.value * p.2)).sum := by
  induction items generalizing d s with
  | nil => simp
  | cons it its ih =>
    cases d with
    | nil =>
      cases s with
      | nil => simp [naiveSelection]
      | cons b bs => simp at hlen
    | cons x ds =>
      cases s with
      | nil => simp at hlen
      | cons b bs =>
        have hconsS : ∀ (i : ℕ) (b2 : Bool), ds[i]? = some (some b2) → bs[i]? = some b2 := by
          intro i b2 h
          have := hcons (i + 1) b2 (by simpa using h)
          simpa using this
        have htail := ih ds bs (fun it2 h2 => hv it2 (List.mem_cons_of_mem _ h2))
          (by simpa using hlen) hconsS
        have hhead : (if b then it.value else 0) ≤
            it.value * (if x = some false then (0 : ℚ) else 1) := by
          have h0 := hv it (List.mem_cons_self _ _)
          rcases x with _ | xb
          · cases b <;> simp [h0]
          · cases xb
            · have hb := hcons 0 false (by simp)
              simp at hb
              simp [hb]
            · cases b <;> simp [h0]
        have hsel : naiveSelection (x :: ds) =
            (if x = some false then (0 : ℚ) else 1) :: naiveSelection ds := by
          simp [naiveSelection]
        rw [hsel]
        simpa using add_le_add hhead htail

lemma sum_map_filter_eq_sum_ite {α : Type} (l : List α) (p : α → Bool) (f : α → ℚ) :
    ((l.filter p).map f).sum = (l.map (fun a => if p a then f a else 0)).sum := by
  induction l with
  | nil => simp
  | cons a l ih => by_cases h : p a <;> simp [List.filter_cons, h, ih]

/-- The weight of the items fixed to 1 is bounded by the weight of any
completion, itemwise. -/
lemma zipFixedWeight_le (items : List Item) (d : List (Option Bool)) (s : List Bool)
    (hw : ∀ it ∈ items, 0 ≤ it.weight) (hlen : s.length = d.length)
    (hcons : ∀ (i : ℕ) (b : Bool), d[i]? = some (some b) → s[i]? = some b) :
    (((items.zip d).filter (fun p => decide (p.2 = some true))).map
        (fun p => p.1.weight)).sum ≤
      ((items.zip s).map (fun p => if p.2 then p.1.weight else 0)).sum := by
  rw [sum_map_filter_eq_sum_ite]
  induction items generalizing d s with
  | nil => simp
  | cons it its ih =>
    cases d with
    | nil =>
      cases s with
      | nil => simp
      | cons b bs => simp at hlen
    | cons x ds =>
      cases s with
      | nil => simp at hlen
      | cons b bs =>
        have hconsS : ∀ (i : ℕ) (b2 : Bool), ds[i]? = some (some b2) → bs[i]? = some b2 := by
          intro i b2 h
          have := hcons (i + 1) b2 (by simpa using h)
          simpa using this
        have htail := ih ds bs (fun it2 h2 => hw it2 (List.mem_cons_of_mem _ h2))
          (by simpa using hlen) hconsS
        have h0 := hw it (List.mem_cons_self _ _)
        have hhead : (if decide (x = some true) then it.weight else 0) ≤
            (if b then it.weight else 0) := by
          by_cases hx : x = some true
          · have hb := hcons 0 true (by simp [hx])
            simp at hb
            simp [hx, hb]
          · cases b <;> simp [hx, h0]
        simpa using add_le_add hhead htail

lemma assignValue_le_naiveObjective (inst : Instance) (d : BranchingDecisions)
    (s : List Bool) (hv : ∀ it ∈ inst.items, 0 ≤ it.value) (hcons : consistent s d) :
    assignValue inst s ≤ naiveObjective inst d :=
  zipValue_le inst.items d s hv hcons.1 hcons.2

lemma fixedOneWeight_le_assignWeight (inst : Instance) (d : BranchingDecisions)
    (s : List Bool) (hw : ∀ it ∈ inst.items, 0 ≤ it.weight) (hcons : consistent s d) :
    fixedOneWeight inst d ≤ assignWeight inst s :=
  zipFixedWeight_le inst.items d s hw hcons.1 hcons.2

lemma naive_selection_01 {inst : Instance} {d : BranchingDecisions} {x : ℚ}
    (hx : x ∈ (NaiveRelaxationSolver.solve inst d).selection) : x = 0 ∨ x = 1 := by
  rw [naive_solve_eq] at hx
  by_cases h : inst.capacity < fixedOneWeight inst d
  · rw [if_pos h] at hx
    exact Or.inl (List.eq_of_mem_replicate hx)
  · rw [if_neg h] at hx
    exact mem_naiveSelection hx

lemma consideredList_eq_nil_of_01 (node : BnBNode)
    (h01 : ∀ x ∈ node.relaxed_solution.selection, x = 0 ∨ x = 1) :
    consideredList node = [] := by
  rw [List.eq_nil_iff_forall_not_mem]
  intro p hp
  have hmem := List.mem_of_mem_filter hp
  have hcond := (List.mem_filter.mp hp).2
  simp only [decide_eq_true_eq] at hcond
  obtain ⟨hnone, h0, h1⟩ := hcond
  have hz := List.getElem?_mem (List.mem_enum_iff_getElem?.mp hmem)
  have hx1 : p.2.1 ∈ node.relaxed_solution.selection := (List.of_mem_zip hz).1
  rcases h01 _ hx1 with h | h
  · rw [h] at h0
    exact lt_irrefl _ h0
  · rw [h] at h1
    exact lt_irrefl _ h1

lemma myBranching_eq_nil (node : BnBNode) (h : consideredList node = []) :
    MyBranchingStrategy.make_branching_decisions node = Except.ok [] := by
  unfold MyBranchingStrategy.make_branching_decisions
  rw [h]
  simp

lemma myBranching_nil_of_01 (node : BnBNode)
    (h01 : ∀ x ∈ node.relaxed_solution.selection, x = 0 ∨ x = 1) :
    MyBranchingStrategy.make_branching_decisions node = Except.ok [] :=
  myBranching_eq_nil node (consideredList_eq_nil_of_01 node h01)

/-- C2: for every instance whose items all have non-negative values and
weights, and every decision vector, the objective returned by
`VeryNaiveRelaxationSolver.solve` — and by `NaiveRelaxationSolver.solve` when
the latter is feasible — is at least the total value of every 0/1 completion
of the decision vector whose total weight is at most the capacity. -/
theorem relaxation_bound_valid (inst : Instance) (d : BranchingDecisions) (s : List Bool)
    (hv : ∀ it ∈ inst.items, 0 ≤ it.value) (hw : ∀ it ∈ inst.items, 0 ≤ it.weight)
    (hcons : consistent s d) (hfeas : assignWeight inst s ≤ inst.capacity) :
    ((assignValue inst s : ℚ) : WithBot ℚ) ≤ (VeryNaiveRelaxationSolver.solve inst d).objective ∧
    ((NaiveRelaxationSolver.solve inst d).feasible = true →
      ((assignValue inst s : ℚ) : WithBot ℚ) ≤ (NaiveRelaxationSolver.solve inst d).objective) := by
  have hval := assignValue_le_naiveObjective inst d s hv hcons
  constructor
  · show ((assignValue inst s : ℚ) : WithBot ℚ) ≤ ((naiveObjective inst d : ℚ) : WithBot ℚ)
    exact_mod_cast hval
  · intro hfeasb
    rw [naive_solve_of_fits ((naive_solve_feasible_iff inst d).mp hfeasb)]
    show ((assignValue inst s : ℚ) : WithBot ℚ) ≤ ((naiveObjective inst d : ℚ) : WithBot ℚ)
    exact_mod_cast hval

/-- Witness for C2 on the §8 example instance with item 1 fixed to 1 and the
completion selecting items 1 and 2. -/
theorem relaxation_bound_valid_witness :
    ((assignValue exInst [true, true, false] : ℚ) : WithBot ℚ) ≤
      (VeryNaiveRelaxationSolver.solve exInst [some true, none, none]).objective :=
  (relaxation_bound_valid exInst [some true, none, none] [true, true, false]
    (by intro it hit; fin_cases hit <;> norm_num [exInst])
    (by intro it hit; fin_cases hit <;> norm_num [exInst])
    (by
      refine ⟨rfl, ?_⟩
      intro i b h
      match i with
      | 0 => simp at h; rw [← h]; rfl
      | 1 => simp at h
      | 2 => simp at h
      | n + 3 => simp at h)
    (by norm_num [assignWeight, exInst])).1

/-- C4: `NaiveRelaxationSolver.solve` is infeasible exactly when the weight of
the items fixed to 1 strictly exceeds the capacity, and otherwise coincides
with `VeryNaiveRelaxationSolver.solve`. -/
theorem naive_capacity_check (inst : Instance) (d : BranchingDecisions) :
    ((NaiveRelaxationSolver.solve inst d).feasible = false ↔
      inst.capacity < fixedOneWeight inst d) ∧
    NaiveRelaxationSolver.solve inst d =
      (if inst.capacity < fixedOneWeight inst d then
        RelaxedSolution.create_infeasible inst
      else VeryNaiveRelaxationSolver.solve inst d) := by
  refine ⟨?_, naive_solve_eq inst d⟩
  by_cases h : inst.capacity < fixedOneWeight inst d <;>
    simp [naive_solve_eq, h, RelaxedSolution.create_infeasible,
      VeryNaiveRelaxationSolver.solve]

/-- Witness for C4 at the all-unset decision vector of the §8 example. -/
theorem naive_capacity_check_witness :
    (NaiveRelaxationSolver.solve exInst [none, none, none]).feasible = false ↔
      exInst.capacity < fixedOneWeight exInst [none, none, none] :=
  (naive_capacity_check exInst [none, none, none]).1

/-- C7: every feasible relaxed solution returned by the three solvers keeps
the fixed decisions: selection 0 where the decision is fixed to 0 and
selection 1 where it is fixed to 1. -/
theorem feasible_selection_respects_fixed (inst : Instance) (d : BranchingDecisions)
    (i : ℕ) :
    ∀ sol ∈ [VeryNaiveRelaxationSolver.solve inst d, NaiveRelaxationSolver.solve inst d,
        MyRelaxationSolver.solve inst d],
      sol.feasible = true →
        (d[i]? = some (some false) → sol.selection[i]? = some 0) ∧
        (d[i]? = some (some true) → sol.selection[i]? = some 1) := by
  have hsel : ∀ (b : Bool), d[i]? = some (some b) →
      (naiveSelection d)[i]? = some (if b then 1 else 0) := by
    intro b hb
    rw [naiveSelection_getElem?, hb]
    cases b <;> simp
  intro sol hsol hfeas
  have hs : sol.selection = naiveSelection d := by
    rcases List.mem_cons.mp hsol with h | hsol2
    · rw [h]
      rfl
    · rcases List.mem_cons.mp hsol2 with h | hsol3
      · subst h
        rw [naive_solve_of_fits ((naive_solve_feasible_iff inst d).mp hfeas)]
        rfl
      · rcases List.mem_cons.mp hsol3 with h | hnil
        · subst h
          rw [my_solve_eq_naive,
            naive_solve_of_fits ((naive_solve_feasible_iff inst d).mp hfeas)]
          rfl
        · simp at hnil
  constructor
  · intro h0
    rw [hs]
    simpa using hsel false h0
  · intro h1
    rw [hs]
    simpa using hsel true h1

/-- Witness for C7: with decisions `[0, 1, unset]` on the §8 example, the
weight-blind solver's selection is 0 at index 0 and 1 at index 1. -/
theorem feasible_selection_respects_fixed_witness :
    (VeryNaiveRelaxationSolver.solve exInst [some false, some true, none]).selection[0]? =
        some 0 ∧
      (VeryNaiveRelaxationSolver.solve exInst [some false, some true, none]).selection[1]? =
        some 1 :=
  ⟨(feasible_selection_respects_fixed exInst [some false, some true, none] 0
      (VeryNaiveRelaxationSolver.solve exInst [some false, some true, none])
      (List.mem_cons_self _ _) rfl).1 rfl,
    (feasible_selection_respects_fixed exInst [some false, some true, none] 1
      (VeryNaiveRelaxationSolver.solve exInst [some false, some true, none])
      (List.mem_cons_self _ _) rfl).2 rfl⟩

/-- C8: each provided relaxation solver is a pure function of the pair
(instance, decisions): equal inputs give equal relaxed solutions.  (The
Python bodies only read their arguments and build fresh lists, so the
translation as pure functions is faithful and leaves the inputs unchanged.) -/
theorem relaxation_solvers_pure (i1 i2 : Instance) (d1 d2 : BranchingDecisions)
    (hi : i1 = i2) (hd : d1 = d2) :
    VeryNaiveRelaxationSolver.solve i1 d1 = VeryNaiveRelaxationSolver.solve i2 d2 ∧
    NaiveRelaxationSolver.solve i1 d1 = NaiveRelaxationSolver.solve i2 d2 ∧
    MyRelaxationSolver.solve i1 d1 = MyRelaxationSolver.solve i2 d2 := by
  subst hi
  subst hd
  exact ⟨rfl, rfl, rfl⟩

/-- Witness for C8 at the §8 example instance and the all-unset vector. -/
theorem relaxation_solvers_pure_witness :
    NaiveRelaxationSolver.solve exInst [none, none, none] =
      NaiveRelaxationSolver.solve exInst [none, none, none] :=
  (relaxation_solvers_pure exInst exInst [none, none, none] [none, none, none]
    rfl rfl).2.1

/-- C9: `MyRelaxationSolver.solve` returns exactly the same relaxed solution
as `NaiveRelaxationSolver.solve` on every input (their bodies are
identical). -/
theorem my_relaxation_equals_naive :
    ∀ (inst : Instance) (d : BranchingDecisions),
      MyRelaxationSolver.solve inst d = NaiveRelaxationSolver.solve inst d :=
  fun _ _ => rfl

/-- C10: the selections produced by `VeryNaiveRelaxationSolver.solve` and
`NaiveRelaxationSolver.solve` contain only 0 and 1, and consequently
`MyBranchingStrategy.make_branching_decisions` returns no children on any
node bounded by one of them — it never branches and never falls back to the
first unfixed index. -/
theorem naive_selections_integral_my_never_branches (inst : Instance)
    (d : BranchingDecisions) :
    (∀ x ∈ (VeryNaiveRelaxationSolver.solve inst d).selection, x = 0 ∨ x = 1) ∧
    (∀ x ∈ (NaiveRelaxationSolver.solve inst d).selection, x = 0 ∨ x = 1) ∧
    ∀ node : BnBNode,
      (node.relaxed_solution = VeryNaiveRelaxationSolver.solve inst d ∨
        node.relaxed_solution = NaiveRelaxationSolver.solve inst d) →
      MyBranchingStrategy.make_branching_decisions node = Except.ok [] := by
  refine ⟨fun x hx => mem_naiveSelection hx, fun x hx => naive_selection_01 hx, ?_⟩
  intro node hnode
  apply myBranching_nil_of_01
  rcases hnode with h | h <;> rw [h]
  · intro x hx
    exact mem_naiveSelection hx
  · intro x hx
    exact naive_selection_01 hx

/-- Witness for C10: the strategy returns no children on the root node of the
§8 example bounded by the weight-blind solver, although all entries are
unset. -/
theorem naive_selections_integral_my_never_branches_witness :
    MyBranchingStrategy.make_branching_decisions
      (BnBNode.mk [none, none, none]
        (VeryNaiveRelaxationSolver.solve exInst [none, none, none])) =
      Except.ok [] :=
  (naive_selections_integral_my_never_branches exInst [none, none, none]).2.2
    (BnBNode.mk [none, none, none]
      (VeryNaiveRelaxationSolver.solve exInst [none, none, none]))
    (Or.inl rfl)

lemma firstUnsetIdx_eq_none_iff (d : BranchingDecisions) :
    firstUnsetIdx d = none ↔ ∀ x ∈ d, x ≠ none := by
  induction d with
  | nil => simp [firstUnsetIdx]
  | cons x ds ih =>
    cases x with
    | none => simp [firstUnsetIdx]
    | some b => simp [firstUnsetIdx, ih]

lemma firstUnsetIdx_spec (d : BranchingDecisions) (i : ℕ)
    (h : firstUnsetIdx d = some i) :
    d[i]? = some none ∧ ∀ j < i, ∀ a, d[j]? = some a → a ≠ none := by
  induction d generalizing i with
  | nil => simp [firstUnsetIdx] at h
  | cons x ds ih =>
    cases x with
    | none =>
      simp [firstUnsetIdx] at h
      subst h
      refine ⟨by simp, ?_⟩
      intro j hj a ha
      omega
    | some b =>
      simp [firstUnsetIdx] at h
      obtain ⟨i2, hi2, rfl⟩ := h
      obtain ⟨h1, h2⟩ := ih i2 hi2
      refine ⟨by simpa using h1, ?_⟩
      intro j hj a ha
      cases j with
      | zero =>
        simp at ha
        rw [← ha]
        simp
      | succ j2 => exact h2 j2 (by omega) a (by simpa using ha)

lemma firstUnsetIdx_eq_some_of (d : BranchingDecisions) (i : ℕ)
    (h1 : d[i]? = some none)
    (h2 : ∀ j < i, ∀ a, d[j]? = some a → a ≠ none) :
    firstUnsetIdx d = some i := by
  induction d generalizing i with
  | nil => simp at h1
  | cons x ds ih =>
    cases i with
    | zero =>
      simp at h1
      rw [h1]
      simp [firstUnsetIdx]
    | succ i2 =>
      have hx : x ≠ none := h2 0 (by omega) x (by simp)
      cases x with
      | none => exact absurd rfl hx
      | some b =>
        have htail := ih i2 (by simpa using h1)
          (fun j hj a ha => h2 (j + 1) (by omega) a (by simpa using ha))
        simp [firstUnsetIdx, htail]

/-- C3: `split_on i` on a decision vector with entry `i` unset returns exactly
the two vectors that agree with the input away from `i` and fix entry `i` to
0 and to 1 respectively; on an already-fixed entry it fails with
`InvalidBranchIndex`. -/
theorem split_on_spec (d : BranchingDecisions) (i : ℕ) :
    (d[i]? = some none →
      BranchingDecisions.split_on d i =
        Except.ok (d.set i (some false), d.set i (some true)) ∧
      (d.set i (some false))[i]? = some (some false) ∧
      (d.set i (some true))[i]? = some (some true) ∧
      ∀ j : ℕ, j ≠ i →
        (d.set i (some false))[j]? = d[j]? ∧ (d.set i (some true))[j]? = d[j]?) ∧
    ∀ b : Bool, d[i]? = some (some b) →
      BranchingDecisions.split_on d i = Except.error SolverError.invalidBranchIndex := by
  constructor
  · intro h
    have hlt : i < d.length := (List.getElem?_eq_some_iff.mp h).1
    refine ⟨?_, ?_, ?_, ?_⟩
    · unfold BranchingDecisions.split_on
      rw [if_pos h]
    · exact List.getElem?_set_eq_of_lt _ hlt
    · exact List.getElem?_set_eq_of_lt _ hlt
    · intro j hj
      exact ⟨List.getElem?_set_ne (Ne.symm hj), List.getElem?_set_ne (Ne.symm hj)⟩
  · intro b hb
    unfold BranchingDecisions.split_on
    rw [if_neg]
    rw [hb]
    simp

/-- Witness for C3: splitting `[unset]` at 0 and failing on `[1]` at 0. -/
theorem split_on_spec_witness :
    BranchingDecisions.split_on [none] 0 = Except.ok ([some false], [some true]) ∧
    BranchingDecisions.split_on [some true] 0 =
      Except.error SolverError.invalidBranchIndex :=
  ⟨((split_on_spec [none] 0).1 rfl).1, (split_on_spec [some true] 0).2 true rfl⟩

lemma firstUndecided_eq_of_none (node : BnBNode)
    (h : firstUnsetIdx node.branching_decisions = none) :
    FirstUndecidedBranchingStrategy.make_branching_decisions node = Except.ok [] := by
  unfold FirstUndecidedBranchingStrategy.make_branching_decisions
  rw [h]

lemma firstUndecided_eq_of_some (node : BnBNode) (i : ℕ)
    (h : firstUnsetIdx node.branching_decisions = some i) :
    FirstUndecidedBranchingStrategy.make_branching_decisions node =
      (BranchingDecisions.split_on node.branching_decisions i).map
        (fun p => [p.1, p.2]) := by
  unfold FirstUndecidedBranchingStrategy.make_branching_decisions
  rw [h]

/-- C5: `FirstUndecidedBranchingStrategy.make_branching_decisions` returns the
empty sequence exactly when no decision entry is unset, and otherwise returns
the two children obtained by splitting at the lowest unset index. -/
theorem firstUndecided_spec (node : BnBNode) :
    (FirstUndecidedBranchingStrategy.make_branching_decisions node = Except.ok [] ↔
      ∀ x ∈ node.branching_decisions, x ≠ none) ∧
    ∀ i : ℕ, node.branching_decisions[i]? = some none →
      (∀ j < i, ∀ a, node.branching_decisions[j]? = some a → a ≠ none) →
      FirstUndecidedBranchingStrategy.make_branching_decisions node =
        Except.ok [node.branching_decisions.set i (some false),
          node.branching_decisions.set i (some true)] := by
  constructor
  · constructor
    · intro hmk
      rcases h : firstUnsetIdx node.branching_decisions with _ | i
      · exact (firstUnsetIdx_eq_none_iff _).mp h
      · exfalso
        have hspec := firstUnsetIdx_spec _ i h
        rw [firstUndecided_eq_of_some node i h] at hmk
        unfold BranchingDecisions.split_on at hmk
        rw [if_pos hspec.1] at hmk
        simp [Except.map] at hmk
    · intro hall
      exact firstUndecided_eq_of_none node ((firstUnsetIdx_eq_none_iff _).mpr hall)
  · intro i h1 h2
    rw [firstUndecided_eq_of_some node i (firstUnsetIdx_eq_some_of _ i h1 h2)]
    unfold BranchingDecisions.split_on
    rw [if_pos h1]
    rfl

/-- Witness for C5: on decisions `[1, unset]` the strategy splits at index 1,
the lowest unset index. -/
theorem firstUndecided_spec_witness :
    FirstUndecidedBranchingStrategy.make_branching_decisions
      (BnBNode.mk [some true, none]
        (VeryNaiveRelaxationSolver.solve exInst [some true, none])) =
      Except.ok [[some true, some false], [some true, some true]] :=
  (firstUndecided_spec
    (BnBNode.mk [some true, none]
      (VeryNaiveRelaxationSolver.solve exInst [some true, none]))).2 1 rfl
    (by
      intro j hj a ha
      have hj0 : j = 0 := by omega
      subst hj0
      simp at ha
      rw [← ha]
      simp)

lemma pairLt_trans {a b c : ℚ × ℕ} (h1 : pairLt a b) (h2 : pairLt b c) : pairLt a c := by
  rcases h1 with h1 | ⟨e1, h1⟩ <;> rcases h2 with h2 | ⟨e2, h2⟩
  · exact Or.inl (lt_trans h1 h2)
  · exact Or.inl (e2 ▸ h1)
  · exact Or.inl (e1 ▸ h2)
  · exact Or.inr ⟨e1.trans e2, lt_trans h1 h2⟩

lemma pairLt_connex {a b : ℚ × ℕ} (h : ¬ pairLt a b) (h2 : ¬ pairLt b a) : a = b := by
  rcases lt_trichotomy a.1 b.1 with h3 | h3 | h3
  · exact absurd (Or.inl h3) h
  · rcases lt_trichotomy a.2 b.2 with h4 | h4 | h4
    · exact absurd (Or.inr ⟨h3, h4⟩) h
    · exact Prod.ext h3 h4
    · exact absurd (Or.inr ⟨h3.symm, h4⟩) h2
  · exact absurd (Or.inl h3) h2

lemma foldl_max_mem (c : ℚ × ℕ) (cs : List (ℚ × ℕ)) :
    cs.foldl (fun acc c2 => if pairLt acc c2 then c2 else acc) c ∈ c :: cs := by
  induction cs generalizing c with
  | nil => simp
  | cons y ys ih =>
    simp only [List.foldl_cons]
    by_cases h : pairLt c y
    · rw [if_pos h]
      have := ih y
      simp only [List.mem_cons] at this ⊢
      tauto
    · rw [if_neg h]
      have := ih c
      simp only [List.mem_cons] at this ⊢
      tauto

lemma pairLt_irrefl (a : ℚ × ℕ) : ¬ pairLt a a := by
  unfold pairLt
  rintro (h | ⟨e, h⟩) <;> exact lt_irrefl _ h

lemma foldl_max_not_lt (c : ℚ × ℕ) (cs : List (ℚ × ℕ)) :
    ∀ x ∈ c :: cs,
      ¬ pairLt (cs.foldl (fun acc c2 => if pairLt acc c2 then c2 else acc) c) x := by
  induction cs generalizing c with
  | nil =>
    intro x hx
    simp at hx
    subst hx
    simpa using pairLt_irrefl x
  | cons y ys ih =>
    intro x hx
    simp only [List.foldl_cons]
    by_cases h : pairLt c y
    · rw [if_pos h]
      rcases List.mem_cons.mp hx with hx1 | hx2
      · rw [hx1]
        intro hrc
        exact ih y y (List.mem_cons_self _ _) (pairLt_trans hrc h)
      · exact ih y x hx2
    · rw [if_neg h]
      rcases List.mem_cons.mp hx with hx1 | hx2
      · rw [hx1]
        exact ih c c (List.mem_cons_self _ _)
      · rcases List.mem_cons.mp hx2 with hx1 | hx3
        · rw [hx1]
          intro hry
          by_cases hyc : pairLt y c
          · exact ih c c (List.mem_cons_self _ _) (pairLt_trans hry hyc)
          · have hxc : y = c := pairLt_connex hyc h
            exact ih c c (List.mem_cons_self _ _) (hxc ▸ hry)
        · exact ih c x (List.mem_cons_of_mem _ hx3)

/-- Membership in the candidate pool of `MyBranchingStrategy`: index `i` with
payload `(x, (dec, it))` is considered exactly when the three parallel lists
hold those entries at `i`, the decision is unset and `x` is strictly
fractional. -/
lemma mem_consideredList_iff (node : BnBNode) (p : ℕ × (ℚ × (Option Bool × Item))) :
    p ∈ consideredList node ↔
      node.relaxed_solution.selection[p.1]? = some p.2.1 ∧
      node.branching_decisions[p.1]? = some p.2.2.1 ∧
      node.relaxed_solution.inst.items[p.1]? = some p.2.2.2 ∧
      p.2.2.1 = none ∧ 0 < p.2.1 ∧ p.2.1 < 1 := by
  unfold consideredList
  rw [List.mem_filter, List.mem_enum_iff_getElem?]
  constructor
  · rintro ⟨hz, hc⟩
    simp only [decide_eq_true_eq] at hc
    obtain ⟨h1, h23⟩ := List.getElem?_zip_eq_some.mp hz
    obtain ⟨h2, h3⟩ := List.getElem?_zip_eq_some.mp h23
    exact ⟨h1, h2, h3, hc.1, hc.2.1, hc.2.2⟩
  · rintro ⟨h1, h2, h3, h4, h5, h6⟩
    refine ⟨?_, by simp only [decide_eq_true_eq]; exact ⟨h4, h5, h6⟩⟩
    exact List.getElem?_zip_eq_some.mpr ⟨h1, List.getElem?_zip_eq_some.mpr ⟨h2, h3⟩⟩

lemma myBranching_eq_of_candidates (node : BnBNode) (c : ℚ × ℕ) (cs : List (ℚ × ℕ))
    (hany : (consideredList node).any (fun p => decide (p.2.2.2.weight = 0)) = false)
    (hc : (consideredList node).map densityOf = c :: cs) :
    MyBranchingStrategy.make_branching_decisions node =
      (BranchingDecisions.split_on node.branching_decisions
        (cs.foldl (fun acc c2 => if pairLt acc c2 then c2 else acc) c).2).map
        (fun p => [p.1, p.2]) := by
  unfold MyBranchingStrategy.make_branching_decisions
  rw [hany, hc]
  simp

/-- The rational one half, built directly so it evaluates in the kernel. -/
def oneHalf : ℚ := ⟨1, 2, by decide, by decide⟩

/-- A node whose only considered candidate is an item of weight 0: decisions
`[unset]`, relaxed selection `[1/2]` over the instance with the single item
`(value 1, weight 0)`. -/
def cexNode : BnBNode :=
  BnBNode.mk [none]
    (RelaxedSolution.mk ⟨[⟨1, 0⟩], 1⟩ [oneHalf] ((1 : ℚ) : WithBot ℚ) true)

/-- C6 counterexample: on `cexNode` the index 0 is considered (unset decision,
strictly fractional relaxed value), yet `MyBranchingStrategy` does not return
two children: it fails with a `ZeroDivisionError`, because the considered
item has weight 0 and Python evaluates `item.value / item.weight`. -/
theorem myBranching_zero_weight_cex :
    (∃ p ∈ consideredList cexNode, p.1 = 0) ∧
    MyBranchingStrategy.make_branching_decisions cexNode =
      Except.error SolverError.zeroDivisionError := by
  constructor
  · exact ⟨(0, (oneHalf, (none, ⟨1, 0⟩))), by decide, rfl⟩
  · decide

/-- C6 (amended): `MyBranchingStrategy.make_branching_decisions` considers
exactly the unfixed indices whose relaxed selection value is strictly between
0 and 1; provided every considered item has nonzero weight, it returns the
empty sequence when no index is considered — even if some decisions are still
unset — and otherwise splits at a considered index whose value/weight ratio
is maximal among the considered indices. -/
theorem myBranching_density_spec (node : BnBNode)
    (hw : ∀ p ∈ consideredList node, p.2.2.2.weight ≠ 0) :
    (∀ i : ℕ, (∃ p ∈ consideredList node, p.1 = i) ↔
      ∃ x : ℚ, ∃ it : Item,
        node.relaxed_solution.selection[i]? = some x ∧
        node.branching_decisions[i]? = some none ∧
        node.relaxed_solution.inst.items[i]? = some it ∧
        0 < x ∧ x < 1) ∧
    (consideredList node = [] →
      MyBranchingStrategy.make_branching_decisions node = Except.ok []) ∧
    ∀ q ∈ consideredList node,
      ∃ p ∈ consideredList node,
        (∀ r ∈ consideredList node,
          r.2.2.2.value / r.2.2.2.weight ≤ p.2.2.2.value / p.2.2.2.weight) ∧
        MyBranchingStrategy.make_branching_decisions node =
          Except.ok [node.branching_decisions.set p.1 (some false),
            node.branching_decisions.set p.1 (some true)] := by
  refine ⟨?_, myBranching_eq_nil node, ?_⟩
  · intro i
    constructor
    · rintro ⟨p, hp, rfl⟩
      obtain ⟨h1, h2, h3, h4, h5, h6⟩ := (mem_consideredList_iff node p).mp hp
      exact ⟨p.2.1, p.2.2.2, h1, h4 ▸ h2, h3, h5, h6⟩
    · rintro ⟨x, it, h1, h2, h3, h5, h6⟩
      exact ⟨(i, (x, (none, it))), (mem_consideredList_iff node _).mpr
        ⟨h1, h2, h3, rfl, h5, h6⟩, rfl⟩
  · intro q hq
    rcases hc : (consideredList node).map densityOf with _ | ⟨c, cs⟩
    · rw [List.map_eq_nil] at hc
      rw [hc] at hq
      simp at hq
    · have hany : (consideredList node).any
          (fun p => decide (p.2.2.2.weight = 0)) = false := by
        rw [List.any_eq_false]
        intro p hp
        simp only [decide_eq_true_eq]
        exact hw p hp
      have hmem : cs.foldl (fun acc c2 => if pairLt acc c2 then c2 else acc) c ∈
          (consideredList node).map densityOf := by
        rw [hc]
        exact foldl_max_mem c cs
      rcases List.mem_map.mp hmem with ⟨p, hp, hdp⟩
      refine ⟨p, hp, ?_, ?_⟩
      · intro r hr
        have hrmem : densityOf r ∈ c :: cs := by
          rw [← hc]
          exact List.mem_map_of_mem _ hr
        have hnlt := foldl_max_not_lt c cs _ hrmem
        have hle : (densityOf r).1 ≤
            (cs.foldl (fun acc c2 => if pairLt acc c2 then c2 else acc) c).1 := by
          by_contra hgt
          push_neg at hgt
          exact hnlt (Or.inl hgt)
        rw [← hdp] at hle
        simpa [densityOf] using hle
      · obtain ⟨-, h2, -, h4, -, -⟩ := (mem_consideredList_iff node p).mp hp
        have hpd : node.branching_decisions[p.1]? = some none := h4 ▸ h2
        have hb2 : (cs.foldl (fun acc c2 => if pairLt acc c2 then c2 else acc) c).2 =
            p.1 := by
          rw [← hdp]
          rfl
        rw [myBranching_eq_of_candidates node c cs hany hc, hb2]
        unfold BranchingDecisions.split_on
        rw [if_pos hpd]
        rfl

/-- A node with two considered candidates of densities 1/2 and 3/4. -/
def fracNode : BnBNode :=
  BnBNode.mk [none, none]
    (RelaxedSolution.mk ⟨[⟨1, 2⟩, ⟨3, 4⟩], 1⟩ [oneHalf, oneHalf]
      ((1 : ℚ) : WithBot ℚ) true)

/-- Witness for the amended C6 on `fracNode`. -/
theorem myBranching_density_spec_witness :
    ∃ p ∈ consideredList fracNode,
      (∀ r ∈ consideredList fracNode,
        r.2.2.2.value / r.2.2.2.weight ≤ p.2.2.2.value / p.2.2.2.weight) ∧
      MyBranchingStrategy.make_branching_decisions fracNode =
        Except.ok [fracNode.branching_decisions.set p.1 (some false),
          fracNode.branching_decisions.set p.1 (some true)] :=
  (myBranching_density_spec fracNode (by decide)).2.2
    (0, (oneHalf, (none, ⟨1, 2⟩))) (by decide)

/-- A 0/1 assignment admissible for an instance: full length and total weight
within the capacity. -/
def admissible (inst : Instance) (s : List Bool) : Prop :=
  s.length = inst.items.length ∧ assignWeight inst s ≤ inst.capacity

/-- A frontier node as the driver creates it: bounded by
`NaiveRelaxationSolver` and of full length. -/
def goodNode (inst : Instance) (nd : BnBNode) : Prop :=
  nd.relaxed_solution = NaiveRelaxationSolver.solve inst nd.branching_decisions ∧
  nd.branching_decisions.length = inst.items.length

/-- The driver loop invariant: every frontier node is well formed, the
incumbent (when present) is the value of an admissible assignment, and every
admissible assignment is either dominated by the incumbent or consistent with
some frontier node. -/
def SearchInv (inst : Instance) (st : SearchState) : Prop :=
  (∀ nd ∈ st.frontier, goodNode inst nd) ∧
  ((st.best_value = ⊥ ∧ st.best_selection = none) ∨
    (∃ s, admissible inst s ∧
      st.best_value = ((assignValue inst s : ℚ) : WithBot ℚ) ∧
      st.best_selection ≠ none)) ∧
  ∀ s, admissible inst s →
    ((assignValue inst s : ℚ) : WithBot ℚ) ≤ st.best_value ∨
      ∃ nd ∈ st.frontier, consistent s nd.branching_decisions

/-- Number of unset entries of a decision vector. -/
def unsetCount (d : BranchingDecisions) : ℕ :=
  d.countP (fun x => decide (x = none))

/-- Termination measure of the search: branching splits one node into two
nodes of strictly smaller weight `3 ^ unsetCount`. -/
def stateMeasure (st : SearchState) : ℕ :=
  (st.frontier.map (fun nd => 3 ^ unsetCount nd.branching_decisions)).sum

/-- The 0/1 assignment the driver reads off an integral naive bound: 1 at
every entry not fixed to 0. -/
def roundUpAssign (d : BranchingDecisions) : List Bool :=
  d.map (fun x => if x = some false then false else true)

lemma value_le_naive_objective (inst : Instance) (d : BranchingDecisions)
    (s : List Bool) (hv : ∀ it ∈ inst.items, 0 ≤ it.value)
    (hw : ∀ it ∈ inst.items, 0 ≤ it.weight) (hadm : admissible inst s)
    (hcons : consistent s d) :
    ((assignValue inst s : ℚ) : WithBot ℚ) ≤
      (NaiveRelaxationSolver.solve inst d).objective := by
  by_cases h : inst.capacity < fixedOneWeight inst d
  · exfalso
    have h1 := fixedOneWeight_le_assignWeight inst d s hw hcons
    have h2 := hadm.2
    exact absurd (lt_of_lt_of_le (lt_of_lt_of_le h h1) h2) (lt_irrefl _)
  · rw [naive_solve_of_fits h]
    show ((assignValue inst s : ℚ) : WithBot ℚ) ≤ ((naiveObjective inst d : ℚ) : WithBot ℚ)
    exact_mod_cast assignValue_le_naiveObjective inst d s hv hcons

lemma isIntegralSel_naiveSelection (d : BranchingDecisions) :
    isIntegralSel (naiveSelection d) = true := by
  rw [isIntegralSel, List.all_eq_true]
  intro x hx
  rcases mem_naiveSelection hx with h | h <;> simp [h]

lemma roundUpAssign_consistent (d : BranchingDecisions) :
    consistent (roundUpAssign d) d := by
  refine ⟨List.length_map _ _, ?_⟩
  intro i b h
  rw [roundUpAssign, List.getElem?_map, h]
  cases b <;> simp

lemma assignValue_roundUpAssign (inst : Instance) (d : BranchingDecisions) :
    assignValue inst (roundUpAssign d) = naiveObjective inst d := by
  unfold assignValue naiveObjective roundUpAssign naiveSelection
  induction inst.items generalizing d with
  | nil => simp
  | cons it its ih =>
    cases d with
    | nil => simp
    | cons x ds =>
      simp only [List.map_cons, List.zip_cons_cons, List.sum_cons]
      rw [ih ds]
      congr 1
      by_cases hx : x = some false <;> simp [hx]

lemma assignWeight_roundUpAssign (inst : Instance) (d : BranchingDecisions) :
    assignWeight inst (roundUpAssign d) =
      selectionWeight inst (naiveSelection d) := by
  unfold assignWeight selectionWeight roundUpAssign naiveSelection
  induction inst.items generalizing d with
  | nil => simp
  | cons it its ih =>
    cases d with
    | nil => simp
    | cons x ds =>
      simp only [List.map_cons, List.zip_cons_cons, List.sum_cons]
      rw [ih ds]
      congr 1
      by_cases hx : x = some false <;> simp [hx]

lemma selectionWeight_of_noUnset (inst : Instance) (d : BranchingDecisions)
    (h : ∀ x ∈ d, x ≠ none) :
    selectionWeight inst (naiveSelection d) = fixedOneWeight inst d := by
  unfold selectionWeight fixedOneWeight naiveSelection
  rw [sum_map_filter_eq_sum_ite]
  induction inst.items generalizing d with
  | nil => simp
  | cons it its ih =>
    cases d with
    | nil => simp
    | cons x ds =>
      simp only [List.map_cons, List.zip_cons_cons, List.sum_cons]
      rw [ih ds (fun y hy => h y (List.mem_cons_of_mem _ hy))]
      congr 1
      have hx := h x (List.mem_cons_self _ _)
      cases x with
      | none => exact absurd rfl hx
      | some b => cases b <;> simp

lemma exists_unset_of_overweight (inst : Instance) (d : BranchingDecisions)
    (hcap : ¬ selectionWeight inst (naiveSelection d) ≤ inst.capacity)
    (hfits : ¬ inst.capacity < fixedOneWeight inst d) :
    ∃ x ∈ d, x = none := by
  by_contra hno
  push_neg at hno
  rw [selectionWeight_of_noUnset inst d hno] at hcap
  exact hcap (le_of_not_lt hfits)

lemma consistent_set (s : List Bool) (d : BranchingDecisions) (i : ℕ) (b : Bool)
    (hcons : consistent s d) (hb : s[i]? = some b) :
    consistent s (d.set i (some b)) := by
  refine ⟨by rw [List.length_set]; exact hcons.1, ?_⟩
  intro j b2 hj
  by_cases hji : j = i
  · subst hji
    have hlt : j < d.length := by
      have := (List.getElem?_eq_some_iff.mp hj).1
      simpa using this
    rw [List.getElem?_set_eq_of_lt _ hlt] at hj
    have hb2 : b2 = b := by
      have := Option.some.inj hj
      exact (Option.some.inj this).symm
    rw [hb2]
    exact hb
  · rw [List.getElem?_set_ne (fun he => hji he.symm)] at hj
    exact hcons.2 j b2 hj

lemma consistent_set_or (s : List Bool) (d : BranchingDecisions) (i : ℕ)
    (hcons : consistent s d) (hi : d[i]? = some none) :
    consistent s (d.set i (some false)) ∨ consistent s (d.set i (some true)) := by
  have hilt : i < d.length := (List.getElem?_eq_some_iff.mp hi).1
  have hslt : i < s.length := by rw [hcons.1]; exact hilt
  have hb : s[i]? = some (s.get ⟨i, hslt⟩) := List.getElem?_eq_getElem hslt
  cases hbi : s.get ⟨i, hslt⟩ with
  | false => exact Or.inl (consistent_set s d i false hcons (by rw [hb, hbi]))
  | true => exact Or.inr (consistent_set s d i true hcons (by rw [hb, hbi]))

lemma unsetCount_set (d : BranchingDecisions) (i : ℕ) (b : Bool)
    (h : d[i]? = some none) :
    unsetCount (d.set i (some b)) + 1 = unsetCount d := by
  unfold unsetCount
  induction d generalizing i with
  | nil => simp at h
  | cons x ds ih =>
    cases i with
    | zero =>
      simp at h
      rw [h]
      simp [List.countP_cons]
    | succ i2 =>
      have := ih i2 (by simpa using h)
      simp only [List.set_cons_succ, List.countP_cons]
      omega

lemma assignWeight_replicate_false (inst : Instance) (n : ℕ) :
    assignWeight inst (List.replicate n false) = 0 := by
  unfold assignWeight
  apply List.sum_eq_zero
  intro x hx
  rcases List.mem_map.mp hx with ⟨p, hp, hpx⟩
  have hb := (List.of_mem_zip hp).2
  have : p.2 = false := List.eq_of_mem_replicate hb
  rw [← hpx, this]
  simp

lemma admissible_replicate_false (inst : Instance) (hc : 0 ≤ inst.capacity) :
    admissible inst (List.replicate inst.items.length false) := by
  refine ⟨List.length_replicate _ _, ?_⟩
  rw [assignWeight_replicate_false]
  exact hc

lemma consistent_rootDecisions (inst : Instance) (s : List Bool)
    (hlen : s.length = inst.items.length) :
    consistent s (rootDecisions inst) := by
  refine ⟨by simp [rootDecisions, hlen], ?_⟩
  intro i b h
  rw [rootDecisions] at h
  rcases lt_or_ge i inst.items.length with hi | hi
  · rw [List.getElem?_replicate, if_pos hi] at h
    simp at h
  · rw [List.getElem?_replicate, if_neg (by omega)] at h
    simp at h

lemma mem_allAssignments (n : ℕ) (s : List Bool) :
    s ∈ allAssignments n ↔ s.length = n := by
  induction n generalizing s with
  | zero =>
    cases s <;> simp [allAssignments]
  | succ n ih =>
    cases s with
    | nil => simp [allAssignments]
    | cons b bs =>
      simp only [allAssignments, List.mem_append, List.mem_map, List.length_cons]
      cases b
      · constructor
        · rintro (⟨t, ht, he⟩ | ⟨t, ht, he⟩)
          · obtain ⟨-, rfl⟩ : false = false ∧ t = bs := by
              constructor
              · rfl
              · exact (List.cons.inj he).2
            rw [(ih t).mp ht]
          · exact absurd (List.cons.inj he).1 (by simp)
        · intro hl
          exact Or.inl ⟨bs, (ih bs).mpr (by omega), rfl⟩
      · constructor
        · rintro (⟨t, ht, he⟩ | ⟨t, ht, he⟩)
          · exact absurd (List.cons.inj he).1 (by simp)
          · obtain rfl : t = bs := (List.cons.inj he).2
            rw [(ih t).mp ht]
        · intro hl
          exact Or.inr ⟨bs, (ih bs).mpr (by omega), rfl⟩

lemma unsetCount_rootDecisions (inst : Instance) :
    unsetCount (rootDecisions inst) = inst.items.length := by
  unfold unsetCount rootDecisions
  induction inst.items.length with
  | zero => simp
  | succ n ih => simp [List.replicate_succ, List.countP_cons, ih]

lemma searchInv_prune (inst : Instance) {node : BnBNode} {rest : List BnBNode}
    {bv : WithBot ℚ} {bs : Option (List ℚ)}
    (hv : ∀ it ∈ inst.items, 0 ≤ it.value) (hw : ∀ it ∈ inst.items, 0 ≤ it.weight)
    (hinv : SearchInv inst ⟨node :: rest, bv, bs⟩)
    (hle : node.relaxed_solution.objective ≤ bv) :
    SearchInv inst ⟨rest, bv, bs⟩ := by
  obtain ⟨hgood, hinc, hbound⟩ := hinv
  refine ⟨fun nd hnd => hgood nd (List.mem_cons_of_mem _ hnd), hinc, ?_⟩
  intro s hadm
  rcases hbound s hadm with h | ⟨nd, hnd, hcons⟩
  · exact Or.inl h
  · rcases List.mem_cons.mp hnd with h1 | h1
    · subst h1
      left
      have hgoodn := hgood nd (List.mem_cons_self _ _)
      calc ((assignValue inst s : ℚ) : WithBot ℚ)
          ≤ (NaiveRelaxationSolver.solve inst nd.branching_decisions).objective :=
            value_le_naive_objective inst nd.branching_decisions s hv hw hadm hcons
        _ = nd.relaxed_solution.objective := by rw [hgoodn.1]
        _ ≤ bv := hle
    · exact Or.inr ⟨nd, h1, hcons⟩

lemma integral_node_facts (inst : Instance) {node : BnBNode}
    (hgood : goodNode inst node)
    (hfeas : node.relaxed_solution.feasible = true)
    (hcap : selectionWeight inst node.relaxed_solution.selection ≤ inst.capacity) :
    admissible inst (roundUpAssign node.branching_decisions) ∧
    node.relaxed_solution.objective =
      ((assignValue inst (roundUpAssign node.branching_decisions) : ℚ) : WithBot ℚ) := by
  have hd := hgood.1
  have hfits : ¬ inst.capacity < fixedOneWeight inst node.branching_decisions := by
    rw [hd] at hfeas
    exact (naive_solve_feasible_iff inst _).mp hfeas
  have hsel : node.relaxed_solution.selection =
      naiveSelection node.branching_decisions := by
    rw [hd, naive_solve_of_fits hfits]
    rfl
  constructor
  · refine ⟨?_, ?_⟩
    · rw [roundUpAssign, List.length_map]
      exact hgood.2
    · rw [assignWeight_roundUpAssign, ← hsel]
      exact hcap
  · rw [hd, naive_solve_of_fits hfits]
    show ((naiveObjective inst node.branching_decisions : ℚ) : WithBot ℚ) = _
    rw [assignValue_roundUpAssign]

lemma searchInv_update (inst : Instance) {node : BnBNode} {rest : List BnBNode}
    {bv : WithBot ℚ} {bs : Option (List ℚ)}
    (hv : ∀ it ∈ inst.items, 0 ≤ it.value) (hw : ∀ it ∈ inst.items, 0 ≤ it.weight)
    (hinv : SearchInv inst ⟨node :: rest, bv, bs⟩)
    (hfeas : node.relaxed_solution.feasible = true)
    (hcap : selectionWeight inst node.relaxed_solution.selection ≤ inst.capacity)
    (hlt : bv < node.relaxed_solution.objective) :
    SearchInv inst ⟨rest, node.relaxed_solution.objective,
      some node.relaxed_solution.selection⟩ := by
  obtain ⟨hgood, hinc, hbound⟩ := hinv
  have hgoodn := hgood node (List.mem_cons_self _ _)
  obtain ⟨hadm0, hobj⟩ := integral_node_facts inst hgoodn hfeas hcap
  refine ⟨fun nd hnd => hgood nd (List.mem_cons_of_mem _ hnd),
    Or.inr ⟨_, hadm0, hobj, by simp⟩, ?_⟩
  intro s hadm
  rcases hbound s hadm with h | ⟨nd, hnd, hcons⟩
  · exact Or.inl (le_trans h (le_of_lt hlt))
  · rcases List.mem_cons.mp hnd with h1 | h1
    · subst h1
      left
      have hval := value_le_naive_objective inst nd.branching_decisions s hv hw hadm hcons
      rw [← hgoodn.1] at hval
      exact hval
    · exact Or.inr ⟨nd, h1, hcons⟩

lemma searchInv_branch (inst : Instance) {node : BnBNode} {rest : List BnBNode}
    {bv : WithBot ℚ} {bs : Option (List ℚ)} {i : ℕ}
    (hinv : SearchInv inst ⟨node :: rest, bv, bs⟩)
    (hi : node.branching_decisions[i]? = some none) :
    SearchInv inst
      ⟨BnBNode.mk (node.branching_decisions.set i (some false))
          (NaiveRelaxationSolver.solve inst (node.branching_decisions.set i (some false))) ::
        BnBNode.mk (node.branching_decisions.set i (some true))
          (NaiveRelaxationSolver.solve inst (node.branching_decisions.set i (some true))) ::
        rest, bv, bs⟩ := by
  obtain ⟨hgood, hinc, hbound⟩ := hinv
  have hlen := (hgood node (List.mem_cons_self _ _)).2
  refine ⟨?_, hinc, ?_⟩
  · intro nd hnd
    rcases List.mem_cons.mp hnd with h1 | hnd2
    · subst h1
      refine ⟨rfl, ?_⟩
      show (node.branching_decisions.set i (some false)).length = _
      rw [List.length_set]
      exact hlen
    · rcases List.mem_cons.mp hnd2 with h1 | hnd3
      · subst h1
        refine ⟨rfl, ?_⟩
        show (node.branching_decisions.set i (some true)).length = _
        rw [List.length_set]
        exact hlen
      · exact hgood nd (List.mem_cons_of_mem _ hnd3)
  · intro s hadm
    rcases hbound s hadm with h | ⟨nd, hnd, hcons⟩
    · exact Or.inl h
    · rcases List.mem_cons.mp hnd with h1 | h1
      · subst h1
        rcases consistent_set_or s nd.branching_decisions i hcons hi with hcf | hct
        · exact Or.inr ⟨_, List.mem_cons_self _ _, hcf⟩
        · exact Or.inr ⟨_, List.mem_cons_of_mem _ (List.mem_cons_self _ _), hct⟩
      · exact Or.inr ⟨nd, List.mem_cons_of_mem _ (List.mem_cons_of_mem _ h1), hcons⟩

lemma expandNode_ok (inst : Instance) (node : BnBNode) (i : ℕ)
    (h : firstUnsetIdx node.branching_decisions = some i) :
    expandNode inst node = Except.ok
      [BnBNode.mk (node.branching_decisions.set i (some false))
        (NaiveRelaxationSolver.solve inst (node.branching_decisions.set i (some false))),
      BnBNode.mk (node.branching_decisions.set i (some true))
        (NaiveRelaxationSolver.solve inst (node.branching_decisions.set i (some true)))] := by
  have hi := (firstUnsetIdx_spec _ i h).1
  unfold expandNode
  rw [firstUndecided_eq_of_some node i h]
  unfold BranchingDecisions.split_on
  rw [if_pos hi]
  rfl

lemma searchInv_final (inst : Instance) (hc : 0 ≤ inst.capacity)
    {bv : WithBot ℚ} {bs : Option (List ℚ)}
    (hinv : SearchInv inst ⟨[], bv, bs⟩) :
    (∃ sel, bs = some sel) ∧ bv = trueOptimum inst := by
  obtain ⟨-, hinc, hbound⟩ := hinv
  have hadm0 := admissible_replicate_false inst hc
  have h0 : ((assignValue inst (List.replicate inst.items.length false) : ℚ) :
      WithBot ℚ) ≤ bv := by
    rcases hbound _ hadm0 with h | ⟨nd, hnd, -⟩
    · exact h
    · exact absurd hnd (List.not_mem_nil nd)
  rcases hinc with ⟨hbv, -⟩ | ⟨s0, hadm, hbv, hbs⟩
  · have hbv2 : bv = ⊥ := hbv
    rw [hbv2] at h0
    exact absurd h0 (by simp)
  · have hbv2 : bv = ((assignValue inst s0 : ℚ) : WithBot ℚ) := hbv
    have hbs2 : bs ≠ none := hbs
    obtain ⟨sel, hsel⟩ := Option.ne_none_iff_exists'.mp hbs2
    refine ⟨⟨sel, hsel⟩, ?_⟩
    rw [hbv2]
    unfold trueOptimum
    refine (List.maximum_eq_coe_iff.mpr ⟨?_, ?_⟩).symm
    · exact List.mem_map_of_mem _ (List.mem_filter.mpr
        ⟨(mem_allAssignments _ _).mpr hadm.1, by simpa using hadm.2⟩)
    · intro a ha
      rcases List.mem_map.mp ha with ⟨s, hs, rfl⟩
      have hsf := List.mem_filter.mp hs
      have hadm2 : admissible inst s :=
        ⟨(mem_allAssignments _ _).mp hsf.1, by simpa using hsf.2⟩
      rcases hbound s hadm2 with h | ⟨nd, hnd, -⟩
      · have h2 : ((assignValue inst s : ℚ) : WithBot ℚ) ≤ bv := h
        rw [hbv2] at h2
        exact_mod_cast h2
      · exact absurd hnd (List.not_mem_nil nd)

lemma bnbLoop_ok (inst : Instance)
    (hv : ∀ it ∈ inst.items, 0 ≤ it.value)
    (hw : ∀ it ∈ inst.items, 0 ≤ it.weight)
    (hc : 0 ≤ inst.capacity) :
    ∀ (fuel : ℕ) (st : SearchState), SearchInv inst st → stateMeasure st < fuel →
      ∃ r, bnbLoop inst fuel st = Except.ok r ∧
        r.status = SolveStatus.OPTIMAL ∧ r.best_value = trueOptimum inst := by
  intro fuel
  induction fuel with
  | zero =>
    intro st hinv hm
    omega
  | succ fuel ih =>
    intro st hinv hm
    obtain ⟨fr, bv, bs⟩ := st
    rcases fr with _ | ⟨node, rest⟩
    · obtain ⟨⟨sel, hsel⟩, hopt⟩ := searchInv_final inst hc hinv
      refine ⟨⟨SolveStatus.OPTIMAL, bv, some sel⟩, ?_, rfl, hopt⟩
      subst hsel
      simp [bnbLoop]
    · have hm0 : stateMeasure ⟨node :: rest, bv, bs⟩ =
          3 ^ unsetCount node.branching_decisions + stateMeasure ⟨rest, bv, bs⟩ := by
        simp [stateMeasure]
      have hpos0 : 0 < 3 ^ unsetCount node.branching_decisions :=
        pow_pos (by norm_num) _
      by_cases h1 : node.relaxed_solution.objective ≤ bv
      · have hinv2 := searchInv_prune inst hv hw hinv h1
        obtain ⟨r, hr, hrs⟩ := ih ⟨rest, bv, bs⟩ hinv2 (by omega)
        refine ⟨r, ?_, hrs⟩
        simp only [bnbLoop]
        rw [if_pos h1]
        exact hr
      · by_cases h2 : node.relaxed_solution.feasible = true ∧
            isIntegralSel node.relaxed_solution.selection = true ∧
            selectionWeight inst node.relaxed_solution.selection ≤ inst.capacity
        · by_cases h3 : bv < node.relaxed_solution.objective
          · have hinv2 := searchInv_update inst hv hw hinv h2.1 h2.2.2 h3
            have hmeq : stateMeasure ⟨rest, node.relaxed_solution.objective,
                some node.relaxed_solution.selection⟩ =
                stateMeasure ⟨rest, bv, bs⟩ := rfl
            obtain ⟨r, hr, hrs⟩ := ih _ hinv2 (by omega)
            refine ⟨r, ?_, hrs⟩
            simp only [bnbLoop]
            rw [if_neg h1, if_pos h2, if_pos h3]
            exact hr
          · have hinv2 := searchInv_prune inst hv hw hinv (le_of_not_lt h3)
            obtain ⟨r, hr, hrs⟩ := ih ⟨rest, bv, bs⟩ hinv2 (by omega)
            refine ⟨r, ?_, hrs⟩
            simp only [bnbLoop]
            rw [if_neg h1, if_pos h2, if_neg h3]
            exact hr
        · have hgoodn := hinv.1 node (List.mem_cons_self _ _)
          have hfits : ¬ inst.capacity < fixedOneWeight inst node.branching_decisions := by
            intro hexc
            apply h1
            rw [hgoodn.1, naive_solve_eq, if_pos hexc]
            exact bot_le
          have hfeasb : node.relaxed_solution.feasible = true := by
            rw [hgoodn.1]
            exact (naive_solve_feasible_iff _ _).mpr hfits
          have hselq : node.relaxed_solution.selection =
              naiveSelection node.branching_decisions := by
            rw [hgoodn.1, naive_solve_of_fits hfits]
            rfl
          have hint : isIntegralSel node.relaxed_solution.selection = true := by
            rw [hselq]
            exact isIntegralSel_naiveSelection _
          have hcap : ¬ selectionWeight inst node.relaxed_solution.selection ≤
              inst.capacity := by
            intro hcp
            exact h2 ⟨hfeasb, hint, hcp⟩
          rw [hselq] at hcap
          obtain ⟨x, hxmem, hxnone⟩ := exists_unset_of_overweight inst _ hcap hfits
          obtain ⟨i, hfi⟩ : ∃ i, firstUnsetIdx node.branching_decisions = some i := by
            rcases hfu : firstUnsetIdx node.branching_decisions with _ | i
            · exact absurd hxnone ((firstUnsetIdx_eq_none_iff _).mp hfu x hxmem)
            · exact ⟨i, rfl⟩
          have hi := (firstUnsetIdx_spec _ i hfi).1
          have hexp := expandNode_ok inst node i hfi
          have hinv2 := searchInv_branch inst hinv hi
          have hcF := unsetCount_set node.branching_decisions i false hi
          have hcT := unsetCount_set node.branching_decisions i true hi
          have hmsr : stateMeasure
              ⟨BnBNode.mk (node.branching_decisions.set i (some false))
                  (NaiveRelaxationSolver.solve inst
                    (node.branching_decisions.set i (some false))) ::
                BnBNode.mk (node.branching_decisions.set i (some true))
                  (NaiveRelaxationSolver.solve inst
                    (node.branching_decisions.set i (some true))) ::
                rest, bv, bs⟩ <
              stateMeasure ⟨node :: rest, bv, bs⟩ := by
            simp only [stateMeasure, List.map_cons, List.sum_cons]
            rw [← hcF, pow_succ]
            have hTF : unsetCount (node.branching_decisions.set i (some true)) =
                unsetCount (node.branching_decisions.set i (some false)) := by omega
            rw [hTF]
            have hposF : 0 < 3 ^ unsetCount (node.branching_decisions.set i (some false)) :=
              pow_pos (by norm_num) _
            omega
          obtain ⟨r, hr, hrs⟩ := ih _ hinv2 (by omega)
          refine ⟨r, ?_, hrs⟩
          simp only [bnbLoop]
          rw [if_neg h1, if_neg h2, hexp]
          exact hr

/-- C1: with well-formed data (non-negative values, weights and capacity) the
modelled search driver, run with `NaiveRelaxationSolver` and
`FirstUndecidedBranchingStrategy`, terminates with status `OPTIMAL` and
reports as `best_value` the maximum total value over all 0/1 subsets whose
total weight is at most the capacity. -/
theorem search_driver_optimal (inst : Instance)
    (hv : ∀ it ∈ inst.items, 0 ≤ it.value)
    (hw : ∀ it ∈ inst.items, 0 ≤ it.weight)
    (hc : 0 ≤ inst.capacity) :
    ∃ r, solve inst = Except.ok r ∧ r.status = SolveStatus.OPTIMAL ∧
      r.best_value = trueOptimum inst := by
  have hinv : SearchInv inst
      ⟨[BnBNode.mk (rootDecisions inst)
        (NaiveRelaxationSolver.solve inst (rootDecisions inst))], ⊥, none⟩ := by
    refine ⟨?_, Or.inl ⟨rfl, rfl⟩, ?_⟩
    · intro nd hnd
      rcases List.mem_cons.mp hnd with h1 | h1
      · subst h1
        exact ⟨rfl, by simp [rootDecisions]⟩
      · exact absurd h1 (List.not_mem_nil nd)
    · intro s hadm
      exact Or.inr ⟨_, List.mem_cons_self _ _, consistent_rootDecisions inst s hadm.1⟩
  have hm : stateMeasure
      ⟨[BnBNode.mk (rootDecisions inst)
        (NaiveRelaxationSolver.solve inst (rootDecisions inst))], ⊥, none⟩ <
      bnbFuel inst := by
    simp [stateMeasure, bnbFuel, unsetCount_rootDecisions]
  exact bnbLoop_ok inst hv hw hc (bnbFuel inst) _ hinv hm

/-- Witness for C1 on the §8 example instance (optimal value 16). -/
theorem search_driver_optimal_witness :
    ∃ r, solve exInst = Except.ok r ∧ r.status = SolveStatus.OPTIMAL ∧
      r.best_value = trueOptimum exInst :=
  search_driver_optimal exInst (by decide) (by decide) (by decide)

end KnapsackBnB
